import Mathlib

/-!
Verification of the batch data-loading utility in this repository: records
are read from a JSON dataset, embedded, and upserted into a vector index
(Pinecone) and a graph database (Neo4j).  The definitions below are a
shallow embedding of `upload_data.py`, `config.py` and `verify_upload.py`.

Python dictionaries for records are modelled as structures with `Option`
fields; `item.get(k, d)` becomes `(·.getD d)`.  The external stores are
modelled by explicit state: the vector upload produces the list of upsert
calls it makes, and the graph upload is a state transformer over an
explicit graph state, following the Cypher semantics of the query strings
that appear verbatim in the source (`MERGE` is create-if-absent-else-update,
`MATCH` binds existing nodes and yields no rows when nothing matches).
`datetime()` in the node query is modelled as an explicit timestamp
parameter of the transaction.
-/

namespace Upload

/-- One entry of a record's `connections` list in `upload_data.py`:
a `{id, type}` pair, each field possibly absent. -/
structure Connection where
  id : Option String
  «type» : Option String
deriving DecidableEq

/-- One input record (`item` in `upload_data.py`). -/
structure Record where
  id : Option String
  name : Option String
  description : Option String
  «type» : Option String
  connections : Option (List Connection)
deriving DecidableEq

/-- Python `sep.join(parts)`. -/
def joinWith (sep : String) : List String → String
  | [] => ""
  | [s] => s
  | s :: t :: rest => s ++ sep ++ joinWith sep (t :: rest)

/-- Embedding of `create_embedding_text` from `upload_data.py`:
`" ".join(filter(None, [item.get('name', ''), item.get('description', ''),
item.get('type', '')]))`.  Python `filter(None, ·)` drops the falsy
elements, i.e. the empty strings. -/
def create_embedding_text (item : Record) : String :=
  joinWith " "
    (([item.name.getD "", item.description.getD "", item.«type».getD ""]).filter
      (fun s => s != ""))

/-- Spec-side rendering of the claim about `EmbeddingText`: the space-joined
concatenation of the non-empty fields among name, description, type, in that
fixed order, realised here by a left fold that inserts a space before every
field appended to a non-empty accumulator.  Compared against
`create_embedding_text` (the embedding of the source). -/
def embeddingTextSpec (item : Record) : String :=
  (([item.name.getD "", item.description.getD "", item.«type».getD ""]).filter
      (fun s => s != "")).foldl
    (fun acc s => if acc = "" then s else acc ++ " " ++ s) ""

lemma append_space_ne_empty (acc s : String) : acc ++ " " ++ s ≠ "" := by
  intro h
  have hlen : (acc ++ " " ++ s).length = ("" : String).length := by rw [h]
  rw [String.length_append, String.length_append] at hlen
  have h2 : (" " : String).length = 1 := by decide
  have h3 : ("" : String).length = 0 := by decide
  omega

lemma foldl_join_nonempty (l : List String) (acc : String) (hacc : acc ≠ "") :
    l.foldl (fun a s => if a = "" then s else a ++ " " ++ s) acc =
      joinWith " " (acc :: l) := by
  induction l generalizing acc with
  | nil => simp [joinWith]
  | cons s t ih =>
      have h1 : acc ++ " " ++ s ≠ "" := append_space_ne_empty acc s
      simp only [List.foldl_cons]
      rw [if_neg hacc, ih (acc ++ " " ++ s) h1]
      cases t with
      | nil => simp [joinWith]
      | cons u rest => simp [joinWith, String.append_assoc]

/-- Claim C2: `create_embedding_text` returns the space-joined concatenation
of the non-empty fields among name, description, type, in that fixed order
(empty or missing fields are skipped); when all three fields are empty or
missing the result is the empty string. -/
theorem create_embedding_text_spec (item : Record) :
    create_embedding_text item = embeddingTextSpec item ∧
    (item.name.getD "" = "" ∧ item.description.getD "" = "" ∧
        item.«type».getD "" = "" →
      create_embedding_text item = "") := by
  constructor
  · unfold create_embedding_text embeddingTextSpec
    cases hp : ([item.name.getD "", item.description.getD "",
        item.«type».getD ""]).filter (fun s => s != "") with
    | nil => simp [joinWith]
    | cons p rest =>
        have hpmem : p ∈ ([item.name.getD "", item.description.getD "",
            item.«type».getD ""]).filter (fun s => s != "") := by
          rw [hp]; exact List.mem_cons_self p rest
        have hpne : p ≠ "" := by
          have := (List.mem_filter.mp hpmem).2
          simpa using this
        simp only [List.foldl_cons, if_true]
        rw [foldl_join_nonempty rest p hpne]
  · intro h
    obtain ⟨h1, h2, h3⟩ := h
    simp [create_embedding_text, h1, h2, h3, joinWith]

/-- Witness for claim C2 at a concrete all-empty record. -/
theorem create_embedding_text_spec_witness :
    create_embedding_text (Record.mk (some "7") none (some "") none none) = "" :=
  (create_embedding_text_spec (Record.mk (some "7") none (some "") none none)).2
    (by constructor <;> simp)

/-- Metadata attached to a vector in `upload_to_pinecone`. -/
structure Metadata where
  id : String
  name : String
  description : String
  «type» : String
  text : String
deriving DecidableEq

/-- One element of `vectors_to_upload` in `upload_to_pinecone`:
`{id, values, metadata}`. -/
structure VectorEntry where
  id : String
  values : List Int
  metadata : Metadata
deriving DecidableEq

/-- Python string slicing `s[:n]` (a prefix of at most `n` characters). -/
def strTake (n : Nat) (s : String) : String := String.mk (s.data.take n)

/-- The metadata dictionary built for record `item` at loop index `i` in
`upload_to_pinecone`; its `text` field is `text[:1000]`. -/
def mkMetadata (i : Nat) (item : Record) : Metadata :=
  { id := item.id.getD (toString i)
    name := item.name.getD ""
    description := item.description.getD ""
    «type» := item.«type».getD ""
    text := strTake 1000 (create_embedding_text item) }

/-- The vector entry appended to `vectors_to_upload` for record `item` at
loop index `i`; `encode` is the embedding model (`model.encode`). -/
def mkVectorEntry (encode : String → List Int) (i : Nat) (item : Record) :
    VectorEntry :=
  { id := item.id.getD (toString i)
    values := encode (create_embedding_text item)
    metadata := mkMetadata i item }

/-- The fixed batch threshold `BATCH_SIZE = 32` in `upload_data.py`. -/
def BATCH_SIZE : Nat := 32

/-- The batching loop of `upload_to_pinecone`: entries are appended to the
current batch one at a time and the batch is flushed by an upsert call as
soon as its size reaches `BATCH_SIZE`.  Returns the upsert calls made inside
the loop together with the leftover batch at loop exit. -/
def pineconeLoop : List VectorEntry → List VectorEntry →
    List (List VectorEntry) × List VectorEntry
  | [], batch => ([], batch)
  | v :: rest, batch =>
      let grown := batch ++ [v]
      if BATCH_SIZE ≤ grown.length then
        let r := pineconeLoop rest []
        (grown :: r.1, r.2)
      else
        pineconeLoop rest grown

/-- The entries prepared by `upload_to_pinecone`, one per record, in dataset
order (`enumerate(data)` supplies the index used for the default id). -/
def pineconeEntries (encode : String → List Int) (data : List Record) :
    List VectorEntry :=
  data.enum.map (fun p => mkVectorEntry encode p.1 p.2)

/-- Embedding of `upload_to_pinecone`: the sequence of `index.upsert` calls
it performs, each call carrying the batch it uploads; after the loop the
leftover batch is flushed only when it is non-empty. -/
def upload_to_pinecone (encode : String → List Int) (data : List Record) :
    List (List VectorEntry) :=
  let r := pineconeLoop (pineconeEntries encode data) []
  if r.2.isEmpty then r.1 else r.1 ++ [r.2]

lemma pineconeLoop_join (l : List VectorEntry) :
    ∀ acc, ((pineconeLoop l acc).1).flatten ++ (pineconeLoop l acc).2 = acc ++ l := by
  induction l with
  | nil => intro acc; simp [pineconeLoop]
  | cons v rest ih =>
      intro acc
      by_cases h : BATCH_SIZE ≤ (acc ++ [v]).length
      · simp only [pineconeLoop, if_pos h, List.flatten_cons, List.append_assoc]
        rw [ih []]
        simp
      · simp only [pineconeLoop, if_neg h]
        rw [ih (acc ++ [v])]
        simp

lemma pineconeLoop_numCalls (l : List VectorEntry) :
    ∀ acc : List VectorEntry, acc.length < 32 →
      (pineconeLoop l acc).1.length = (l.length + acc.length) / 32 := by
  induction l with
  | nil =>
      intro acc h
      simp [pineconeLoop]
      omega
  | cons v rest ih =>
      intro acc h
      by_cases hc : BATCH_SIZE ≤ (acc ++ [v]).length
      · have ha : acc.length = 31 := by
          simp [BATCH_SIZE, List.length_append] at hc
          omega
        simp only [pineconeLoop, if_pos hc, List.length_cons]
        rw [ih [] (by simp [BATCH_SIZE])]
        simp [List.length_cons, ha]
        omega
      · have ha : (acc ++ [v]).length < 32 := by
          simp [BATCH_SIZE] at hc
          simp [List.length_append]
          omega
        simp only [pineconeLoop, if_neg hc]
        rw [ih (acc ++ [v]) ha]
        simp [List.length_append]
        omega

lemma pineconeLoop_leftover (l : List VectorEntry) :
    ∀ acc : List VectorEntry, acc.length < 32 →
      (pineconeLoop l acc).2.length = (l.length + acc.length) % 32 := by
  induction l with
  | nil =>
      intro acc h
      simp [pineconeLoop]
      omega
  | cons v rest ih =>
      intro acc h
      by_cases hc : BATCH_SIZE ≤ (acc ++ [v]).length
      · have ha : acc.length = 31 := by
          simp [BATCH_SIZE, List.length_append] at hc
          omega
        simp only [pineconeLoop, if_pos hc]
        rw [ih [] (by simp [BATCH_SIZE])]
        simp [ha]
        omega
      · have ha : (acc ++ [v]).length < 32 := by
          simp [BATCH_SIZE] at hc
          simp [List.length_append]
          omega
        simp only [pineconeLoop, if_neg hc]
        rw [ih (acc ++ [v]) ha]
        simp [List.length_append]
        omega

lemma pineconeLoop_full_batches (l : List VectorEntry) :
    ∀ acc : List VectorEntry, acc.length < 32 →
      ∀ b ∈ (pineconeLoop l acc).1, b.length = 32 := by
  induction l with
  | nil => intro acc _ b hb; simp [pineconeLoop] at hb
  | cons v rest ih =>
      intro acc h b hb
      by_cases hc : BATCH_SIZE ≤ (acc ++ [v]).length
      · simp only [pineconeLoop, if_pos hc] at hb
        rcases List.mem_cons.mp hb with hb1 | hb2
        · subst hb1
          simp [BATCH_SIZE, List.length_append] at hc ⊢
          omega
        · exact ih [] (by simp) b hb2
      · have ha : (acc ++ [v]).length < 32 := by
          simp [BATCH_SIZE] at hc
          simp [List.length_append]
          omega
        simp only [pineconeLoop, if_neg hc] at hb
        exact ih (acc ++ [v]) ha b hb

lemma pineconeEntries_length (encode : String → List Int) (data : List Record) :
    (pineconeEntries encode data).length = data.length := by
  simp [pineconeEntries]

lemma upload_to_pinecone_cases (encode : String → List Int) (data : List Record) :
    upload_to_pinecone encode data =
      if (pineconeLoop (pineconeEntries encode data) []).2 = []
      then (pineconeLoop (pineconeEntries encode data) []).1
      else (pineconeLoop (pineconeEntries encode data) []).1 ++
        [(pineconeLoop (pineconeEntries encode data) []).2] := by
  unfold upload_to_pinecone
  by_cases h : (pineconeLoop (pineconeEntries encode data) []).2 = [] <;>
    simp [List.isEmpty_iff, h]

/-- Claim C1: for every dataset of N records (N ≥ 1), `upload_to_pinecone`
performs exactly ceil(N/32) upsert calls: every call flushed inside the loop
carries exactly 32 entries, the leftover batch flushed after the loop is
non-empty iff N mod 32 ≠ 0, and the calls concatenate to the full entry
list, so every entry is uploaded in exactly one call. -/
theorem upload_to_pinecone_batching (encode : String → List Int)
    (data : List Record) (_h : data ≠ []) :
    (upload_to_pinecone encode data).length = (data.length + 31) / 32 ∧
    (upload_to_pinecone encode data).flatten = pineconeEntries encode data ∧
    (∀ b ∈ (pineconeLoop (pineconeEntries encode data) []).1, b.length = 32) ∧
    ((pineconeLoop (pineconeEntries encode data) []).2 ≠ [] ↔
      data.length % 32 ≠ 0) := by
  have hE : (pineconeEntries encode data).length = data.length :=
    pineconeEntries_length encode data
  have hcalls := pineconeLoop_numCalls (pineconeEntries encode data) [] (by simp)
  have hleft := pineconeLoop_leftover (pineconeEntries encode data) [] (by simp)
  have hjoin := pineconeLoop_join (pineconeEntries encode data) []
  rw [List.length_nil, Nat.add_zero, hE] at hcalls hleft
  refine ⟨?_, ?_, pineconeLoop_full_batches (pineconeEntries encode data) [] (by simp), ?_⟩
  · rw [upload_to_pinecone_cases]
    by_cases h0 : (pineconeLoop (pineconeEntries encode data) []).2 = []
    · have hm : data.length % 32 = 0 := by
        rw [h0] at hleft
        simpa using hleft.symm
      rw [if_pos h0, hcalls]
      omega
    · have hm : data.length % 32 ≠ 0 := by
        intro hz
        rw [hz] at hleft
        exact h0 (List.length_eq_zero.mp hleft)
      rw [if_neg h0, List.length_append, hcalls]
      simp only [List.length_singleton]
      omega
  · rw [upload_to_pinecone_cases]
    by_cases h0 : (pineconeLoop (pineconeEntries encode data) []).2 = []
    · rw [if_pos h0]
      rw [h0] at hjoin
      simpa using hjoin
    · rw [if_neg h0, List.flatten_append]
      simpa using hjoin
  · constructor
    · intro hne hz
      rw [hz] at hleft
      exact hne (List.length_eq_zero.mp hleft)
    · intro hm hcontra
      rw [hcontra] at hleft
      simp at hleft
      omega

/-- A concrete sample record used by witnesses. -/
def sampleRecord : Record :=
  Record.mk (some "1") (some "Rule A") (some "d1") (some "t1")
    (some [Connection.mk (some "2") (some "NEXT")])

/-- Witness for claim C1 at a one-record dataset. -/
theorem upload_to_pinecone_batching_witness :
    (upload_to_pinecone (fun _ => ([] : List Int)) [sampleRecord]).length =
      (([sampleRecord] : List Record).length + 31) / 32 :=
  (upload_to_pinecone_batching (fun _ => ([] : List Int)) [sampleRecord]
    (by simp)).1

/-- Claim C6: the metadata `text` field of the vector entry built for a
record is exactly the first 1000 characters of the record's embedding text
(texts of length at most 1000 are stored whole, longer ones are cut to
exactly 1000 characters), and the entry's id and vector values do not
depend on the truncation. -/
theorem metadata_truncation (encode : String → List Int) (i : Nat)
    (item : Record) :
    (mkVectorEntry encode i item).metadata.text =
      strTake 1000 (create_embedding_text item) ∧
    ((create_embedding_text item).length ≤ 1000 →
      (mkVectorEntry encode i item).metadata.text = create_embedding_text item) ∧
    (1000 < (create_embedding_text item).length →
      (mkVectorEntry encode i item).metadata.text.length = 1000) ∧
    (mkVectorEntry encode i item).id = item.id.getD (toString i) ∧
    (mkVectorEntry encode i item).values = encode (create_embedding_text item) := by
  refine ⟨rfl, ?_, ?_, rfl, rfl⟩
  · intro h
    show strTake 1000 (create_embedding_text item) = create_embedding_text item
    unfold strTake
    have hdata : (create_embedding_text item).data.take 1000 =
        (create_embedding_text item).data := List.take_of_length_le h
    rw [hdata]
  · intro h
    show (strTake 1000 (create_embedding_text item)).length = 1000
    unfold strTake
    have : (String.mk ((create_embedding_text item).data.take 1000)).length =
        ((create_embedding_text item).data.take 1000).length := rfl
    rw [this, List.length_take]
    have hlen : (create_embedding_text item).data.length =
        (create_embedding_text item).length := rfl
    omega

/-- A record whose embedding text has 1001 characters. -/
def longRecord : Record :=
  Record.mk none (some (String.mk (List.replicate 1001 'a'))) none none none

/-- Witness for claim C6 at a record with a 1001-character embedding text. -/
theorem metadata_truncation_witness :
    1000 < (create_embedding_text longRecord).length ∧
    (mkVectorEntry (fun _ => ([] : List Int)) 0 longRecord).metadata.text.length
      = 1000 := by
  have hne : String.mk (List.replicate 1001 'a') ≠ "" := by
    intro hcontra
    have hnil : List.replicate 1001 'a' = ("" : String).data := by
      rw [← hcontra]
    have hdot : ("" : String).data = ([] : List Char) := by decide
    rw [hdot] at hnil
    have hlen := congrArg List.length hnil
    rw [List.length_replicate, List.length_nil] at hlen
    omega
  have hb : (String.mk (List.replicate 1001 'a') != "") = true := bne_iff_ne.mpr hne
  have htext : create_embedding_text longRecord = String.mk (List.replicate 1001 'a') := by
    simp [create_embedding_text, longRecord, hb, joinWith]
  have h : 1000 < (create_embedding_text longRecord).length := by
    rw [htext]
    have hlr : (String.mk (List.replicate 1001 'a')).length = 1001 := by
      show (List.replicate 1001 'a').length = 1001
      rw [List.length_replicate]
    omega
  exact ⟨h, (metadata_truncation (fun _ => ([] : List Int)) 0 longRecord).2.2.1 h⟩

/-- The properties `SET` on a graph node by `create_node`; `created_at`
records the transaction timestamp standing for Cypher's `datetime()`. -/
structure NodeProps where
  name : String
  description : String
  «type» : String
  created_at : Nat
deriving DecidableEq

/-- A stored graph node: its label, its `id` property and the remaining
properties. -/
structure GNode where
  label : String
  id : String
  props : NodeProps
deriving DecidableEq

/-- A stored `RELATED_TO` relationship: source node id, target node id and
the `type` property carried by the relationship. -/
structure GEdge where
  src : String
  dst : String
  relType : String
deriving DecidableEq

/-- The graph-store state: the stored nodes and relationships. -/
structure GraphState where
  nodes : List GNode
  edges : List GEdge
deriving DecidableEq

/-- Embedding of `clear_database`: `MATCH (n) DETACH DELETE n` removes every
node and, with them, every relationship. -/
def clear_database (_g : GraphState) : GraphState := GraphState.mk [] []

/-- Whether the graph contains a node with label `ServiceRule` and the given
`id` property (what `MATCH (x:ServiceRule {id: $id})` binds). -/
def hasServiceRule (g : GraphState) (id : String) : Bool :=
  g.nodes.any (fun n => n.label == "ServiceRule" && n.id == id)

/-- The node properties written by the `SET` clause of `create_node` for
record `item` in a transaction at timestamp `t`. -/
def nodePropsOf (t : Nat) (item : Record) : NodeProps :=
  NodeProps.mk (item.name.getD "") (item.description.getD "")
    (item.«type».getD "") t

/-- The effect of the `SET` clause on one stored node: a node matched by
`MERGE (n:ServiceRule {id: $id})` gets its properties overwritten, any other
node is untouched. -/
def updateNode (id : String) (props : NodeProps) (n : GNode) : GNode :=
  if n.label == "ServiceRule" && n.id == id then GNode.mk n.label n.id props
  else n

/-- Embedding of `create_node`: `MERGE (n:ServiceRule {id: $id})` matches the
existing `ServiceRule` nodes with this id and otherwise creates one, and the
`SET` clause then overwrites the properties of every matched node. -/
def create_node (t : Nat) (g : GraphState) (item : Record) : GraphState :=
  let id := item.id.getD ""
  let props := nodePropsOf t item
  if hasServiceRule g id then
    GraphState.mk (g.nodes.map (updateNode id props)) g.edges
  else
    GraphState.mk (g.nodes ++ [GNode.mk "ServiceRule" id props]) g.edges

/-- The relationship the edge query of `create_relationships` would merge
for connection `c` of record `item` (query parameters
`from_id = item.get('id', '')`, `to_id = connection.get('id', '')`,
`relation_type = connection.get('type', 'RELATED')`). -/
def edgeOf (item : Record) (c : Connection) : GEdge :=
  GEdge.mk (item.id.getD "") (c.id.getD "") (c.«type».getD "RELATED")

/-- One execution of the edge query: the two `MATCH` clauses must both bind a
`ServiceRule` node, otherwise the query yields no rows and nothing happens;
when both bind, `MERGE` creates the relationship unless it already exists. -/
def mergeEdge (g : GraphState) (e : GEdge) : GraphState :=
  if hasServiceRule g e.src = true ∧ hasServiceRule g e.dst = true then
    if e ∈ g.edges then g else GraphState.mk g.nodes (g.edges ++ [e])
  else g

/-- Embedding of `create_relationships`: when the record has a `connections`
key, run the edge query once per connection, in list order. -/
def create_relationships (g : GraphState) (item : Record) : GraphState :=
  match item.connections with
  | none => g
  | some cs => cs.foldl (fun s c => mergeEdge s (edgeOf item c)) g

/-- The write transactions issued by `upload_to_neo4j`, in order. -/
inductive Neo4jTx where
  | clearTx : Neo4jTx
  | nodeTx (item : Record) : Neo4jTx
  | edgeTx (item : Record) : Neo4jTx
deriving DecidableEq

/-- Embedding of `upload_to_neo4j`: clear the database, then one
`create_node` transaction per record, then one `create_relationships`
transaction per record.  Returns the final graph state together with the
ordered list of issued write transactions. -/
def upload_to_neo4j (t : Nat) (g : GraphState) (data : List Record) :
    GraphState × List Neo4jTx :=
  let g0 := clear_database g
  let g1 := data.foldl (create_node t) g0
  let g2 := data.foldl create_relationships g1
  (g2, Neo4jTx.clearTx :: (data.map Neo4jTx.nodeTx ++ data.map Neo4jTx.edgeTx))

lemma mem_left_of_split {α : Type} (l1 : List α) :
    ∀ (l2 p s : List α) (x : α), l1 ++ l2 = p ++ x :: s → x ∉ l1 →
      ∀ y ∈ l1, y ∈ p := by
  induction l1 with
  | nil => intro l2 p s x _ _ y hy; simp at hy
  | cons a t ih =>
      intro l2 p s x h hx y hy
      cases p with
      | nil =>
          have h' : a :: (t ++ l2) = x :: s := by simpa using h
          injection h' with hax _
          subst hax
          exact absurd (List.mem_cons_self a t) hx
      | cons b p' =>
          have h' : a :: (t ++ l2) = b :: (p' ++ x :: s) := by simpa using h
          injection h' with hab hrest
          rcases List.mem_cons.mp hy with hya | hyt
          · subst hab
            rw [hya]
            exact List.mem_cons_self a p'
          · have hxt : x ∉ t := fun hc => hx (List.mem_cons_of_mem a hc)
            exact List.mem_cons_of_mem b (ih l2 p' s x hrest hxt y hyt)

/-- Claim C3: in the transaction trace of `upload_to_neo4j`, by the time any
relationship-creating transaction is issued, the node transaction of every
record in the dataset has already been issued: whenever the trace splits
around an edge transaction, every record's node transaction lies in the part
before the split. -/
theorem nodes_before_edges (t : Nat) (g : GraphState) (data : List Record)
    (p s : List Neo4jTx) (e : Record)
    (h : (upload_to_neo4j t g data).2 = p ++ Neo4jTx.edgeTx e :: s) :
    ∀ r ∈ data, Neo4jTx.nodeTx r ∈ p := by
  intro r hr
  have htr : (Neo4jTx.clearTx :: data.map Neo4jTx.nodeTx) ++
      data.map Neo4jTx.edgeTx = p ++ Neo4jTx.edgeTx e :: s := by
    simpa [upload_to_neo4j] using h
  have hx : Neo4jTx.edgeTx e ∉ (Neo4jTx.clearTx :: data.map Neo4jTx.nodeTx) := by
    intro hmem
    rcases List.mem_cons.mp hmem with h1 | h2
    · exact Neo4jTx.noConfusion h1
    · obtain ⟨a, -, ha⟩ := List.mem_map.mp h2
      exact Neo4jTx.noConfusion ha
  exact mem_left_of_split (Neo4jTx.clearTx :: data.map Neo4jTx.nodeTx)
    (data.map Neo4jTx.edgeTx) p s (Neo4jTx.edgeTx e) htr hx
    (Neo4jTx.nodeTx r)
    (List.mem_cons_of_mem _ (List.mem_map_of_mem Neo4jTx.nodeTx hr))

/-- Witness for claim C3 at a one-record dataset. -/
theorem nodes_before_edges_witness :
    Neo4jTx.nodeTx sampleRecord ∈
      [Neo4jTx.clearTx, Neo4jTx.nodeTx sampleRecord] :=
  nodes_before_edges 0 (GraphState.mk [] []) [sampleRecord]
    [Neo4jTx.clearTx, Neo4jTx.nodeTx sampleRecord] [] sampleRecord rfl
    sampleRecord (List.mem_cons_self sampleRecord [])

lemma mergeEdge_nodes (g : GraphState) (e : GEdge) : (mergeEdge g e).nodes = g.nodes := by
  unfold mergeEdge
  by_cases h1 : hasServiceRule g e.src = true ∧ hasServiceRule g e.dst = true
  · rw [if_pos h1]
    by_cases h2 : e ∈ g.edges
    · rw [if_pos h2]
    · rw [if_neg h2]
  · rw [if_neg h1]

lemma mergeEdge_mem (g : GraphState) (e x : GEdge) :
    x ∈ (mergeEdge g e).edges ↔
      x ∈ g.edges ∨ (x = e ∧ hasServiceRule g e.src = true ∧
        hasServiceRule g e.dst = true) := by
  unfold mergeEdge
  by_cases h1 : hasServiceRule g e.src = true ∧ hasServiceRule g e.dst = true
  · rw [if_pos h1]
    by_cases h2 : e ∈ g.edges
    · rw [if_pos h2]
      constructor
      · exact fun hx => Or.inl hx
      · rintro (hx | ⟨hxe, -⟩)
        · exact hx
        · rw [hxe]; exact h2
    · rw [if_neg h2]
      simp only [List.mem_append, List.mem_singleton]
      constructor
      · rintro (hx | hx)
        · exact Or.inl hx
        · exact Or.inr ⟨hx, h1⟩
      · rintro (hx | ⟨hxe, -⟩)
        · exact Or.inl hx
        · exact Or.inr hxe
  · rw [if_neg h1]
    constructor
    · exact fun hx => Or.inl hx
    · rintro (hx | ⟨-, hsrc, hdst⟩)
      · exact hx
      · exact absurd ⟨hsrc, hdst⟩ h1

lemma hasServiceRule_mergeEdge (g : GraphState) (e : GEdge) (id : String) :
    hasServiceRule (mergeEdge g e) id = hasServiceRule g id := by
  unfold hasServiceRule
  rw [mergeEdge_nodes]

lemma foldl_mergeEdge_nodes (item : Record) (cs : List Connection) :
    ∀ g : GraphState,
      (cs.foldl (fun s c => mergeEdge s (edgeOf item c)) g).nodes = g.nodes := by
  induction cs with
  | nil => intro g; rfl
  | cons c cs' ih =>
      intro g
      rw [List.foldl_cons, ih (mergeEdge g (edgeOf item c)), mergeEdge_nodes]

lemma foldl_mergeEdge_mem (item : Record) (cs : List Connection) :
    ∀ (g : GraphState) (x : GEdge),
      x ∈ (cs.foldl (fun s c => mergeEdge s (edgeOf item c)) g).edges ↔
        x ∈ g.edges ∨ ∃ c ∈ cs, x = edgeOf item c ∧
          hasServiceRule g (edgeOf item c).src = true ∧
          hasServiceRule g (edgeOf item c).dst = true := by
  induction cs with
  | nil => intro g x; simp
  | cons c cs' ih =>
      intro g x
      rw [List.foldl_cons, ih (mergeEdge g (edgeOf item c)) x]
      simp only [hasServiceRule_mergeEdge]
      rw [mergeEdge_mem]
      constructor
      · rintro ((hx | ⟨hxe, hs, hd⟩) | ⟨c', hc', hxe, hs, hd⟩)
        · exact Or.inl hx
        · exact Or.inr ⟨c, List.mem_cons_self c cs', hxe, hs, hd⟩
        · exact Or.inr ⟨c', List.mem_cons_of_mem c hc', hxe, hs, hd⟩
      · rintro (hx | ⟨c', hc', hxe, hs, hd⟩)
        · exact Or.inl (Or.inl hx)
        · rcases List.mem_cons.mp hc' with hcc | hcc
          · subst hcc; exact Or.inl (Or.inr ⟨hxe, hs, hd⟩)
          · exact Or.inr ⟨c', hcc, hxe, hs, hd⟩

lemma create_relationships_nodes (g : GraphState) (item : Record) :
    (create_relationships g item).nodes = g.nodes := by
  unfold create_relationships
  cases item.connections with
  | none => rfl
  | some cs => exact foldl_mergeEdge_nodes item cs g

lemma create_relationships_mem (g : GraphState) (item : Record) (x : GEdge) :
    x ∈ (create_relationships g item).edges ↔
      x ∈ g.edges ∨ ∃ c ∈ item.connections.getD [], x = edgeOf item c ∧
        hasServiceRule g (edgeOf item c).src = true ∧
        hasServiceRule g (edgeOf item c).dst = true := by
  unfold create_relationships
  cases item.connections with
  | none => simp
  | some cs => simpa using foldl_mergeEdge_mem item cs g x

/-- Claim C4: an edge upsert never fails and never touches the node set, and
an edge ends up in the store exactly when it comes from a connection whose
two endpoints both exist as `ServiceRule` nodes (or was already stored): a
connection whose target id matches no node is a silent no-op, while
connections with existing endpoints are still processed. -/
theorem create_relationships_silent_noop (g : GraphState) (item : Record) :
    (create_relationships g item).nodes = g.nodes ∧
    ∀ x : GEdge, x ∈ (create_relationships g item).edges ↔
      x ∈ g.edges ∨ ∃ c ∈ item.connections.getD [], x = edgeOf item c ∧
        hasServiceRule g (edgeOf item c).src = true ∧
        hasServiceRule g (edgeOf item c).dst = true :=
  ⟨create_relationships_nodes g item, fun x => create_relationships_mem g item x⟩

/-- Witness for claim C4: a record with a dangling connection leaves the
nodes of a concrete graph unchanged. -/
theorem create_relationships_silent_noop_witness :
    (create_relationships (GraphState.mk [GNode.mk "ServiceRule" "1"
        (NodeProps.mk "A" "d" "t" 0)] []) sampleRecord).nodes =
      (GraphState.mk [GNode.mk "ServiceRule" "1" (NodeProps.mk "A" "d" "t" 0)]
        []).nodes :=
  (create_relationships_silent_noop (GraphState.mk [GNode.mk "ServiceRule" "1"
    (NodeProps.mk "A" "d" "t" 0)] []) sampleRecord).1

/-- What a read of one `ServiceRule` node by id observes: the properties of
the stored node with that id, when present. -/
def lookupServiceRule (g : GraphState) (id : String) : Option NodeProps :=
  (g.nodes.find? (fun n => n.label == "ServiceRule" && n.id == id)).map
    (fun n => n.props)

/-- The ids of the stored `ServiceRule` nodes, with multiplicity. -/
def serviceRuleIds (g : GraphState) : List String :=
  (g.nodes.filter (fun n => n.label == "ServiceRule")).map (fun n => n.id)

/-- The node-upload pass of `upload_to_neo4j`: one `create_node` transaction
per record, in dataset order, all at timestamp `t`. -/
def upload_nodes (t : Nat) (g : GraphState) (data : List Record) : GraphState :=
  data.foldl (create_node t) g

/-- The properties written by the last record of `data` whose id is `id`
(at timestamp `t`), if any. -/
def findLastProps (t : Nat) (id : String) : List Record → Option NodeProps
  | [] => none
  | r :: rest =>
      match findLastProps t id rest with
      | some p => some p
      | none => if r.id.getD "" = id then some (nodePropsOf t r) else none

lemma create_node_eq (t : Nat) (g : GraphState) (item : Record) :
    create_node t g item =
      if hasServiceRule g (item.id.getD "") = true then
        GraphState.mk
          (g.nodes.map (updateNode (item.id.getD "") (nodePropsOf t item)))
          g.edges
      else
        GraphState.mk (g.nodes ++ [GNode.mk "ServiceRule" (item.id.getD "")
          (nodePropsOf t item)]) g.edges := rfl

lemma updateNode_label (id : String) (props : NodeProps) (n : GNode) :
    (updateNode id props n).label = n.label := by
  unfold updateNode
  by_cases h : (n.label == "ServiceRule" && n.id == id) = true
  · rw [if_pos h]
  · rw [if_neg h]

lemma updateNode_id (id : String) (props : NodeProps) (n : GNode) :
    (updateNode id props n).id = n.id := by
  unfold updateNode
  by_cases h : (n.label == "ServiceRule" && n.id == id) = true
  · rw [if_pos h]
  · rw [if_neg h]

lemma updateNode_pred (rid : String) (props : NodeProps) (id : String)
    (n : GNode) :
    ((updateNode rid props n).label == "ServiceRule" &&
        (updateNode rid props n).id == id) =
      (n.label == "ServiceRule" && n.id == id) := by
  rw [updateNode_label, updateNode_id]

lemma find?_map_pres {α : Type} (f : α → α) (p : α → Bool)
    (h : ∀ a, p (f a) = p a) (l : List α) :
    (l.map f).find? p = (l.find? p).map f := by
  have hp : (fun a => p (f a)) = p := funext h
  rw [List.find?_map, Function.comp_def, hp]

lemma lookup_create_node (t : Nat) (g : GraphState) (item : Record)
    (id : String) :
    lookupServiceRule (create_node t g item) id =
      if item.id.getD "" = id then some (nodePropsOf t item)
      else lookupServiceRule g id := by
  by_cases hpres : hasServiceRule g (item.id.getD "") = true
  · rw [create_node_eq, if_pos hpres]
    unfold lookupServiceRule
    dsimp only
    rw [find?_map_pres (updateNode (item.id.getD "") (nodePropsOf t item)) _
      (updateNode_pred (item.id.getD "") (nodePropsOf t item) id)]
    by_cases hid : item.id.getD "" = id
    · rw [if_pos hid]
      subst hid
      unfold hasServiceRule at hpres
      rw [List.any_eq_true] at hpres
      obtain ⟨n0, hn0, hp0⟩ := hpres
      have hex : (g.nodes.find? (fun n => n.label == "ServiceRule" &&
          n.id == item.id.getD "")).isSome = true :=
        List.find?_isSome.mpr ⟨n0, hn0, hp0⟩
      obtain ⟨n1, hfind⟩ := Option.isSome_iff_exists.mp hex
      rw [hfind]
      have hp1 := List.find?_some hfind
      show some ((updateNode (item.id.getD "") (nodePropsOf t item) n1).props)
        = some (nodePropsOf t item)
      unfold updateNode
      rw [if_pos hp1]
    · rw [if_neg hid]
      cases hfind : g.nodes.find? (fun n => n.label == "ServiceRule" &&
          n.id == id) with
      | none => rfl
      | some n0 =>
          have hp0 := List.find?_some hfind
          rw [Bool.and_eq_true] at hp0
          have hcond : (n0.label == "ServiceRule" &&
              n0.id == item.id.getD "") = false := by
            have hne : n0.id ≠ item.id.getD "" := by
              rw [beq_iff_eq.mp hp0.2]
              exact fun hcontra => hid hcontra.symm
            rw [beq_eq_false_iff_ne.mpr hne, Bool.and_false]
          show some ((updateNode (item.id.getD "") (nodePropsOf t item)
            n0).props) = some n0.props
          unfold updateNode
          rw [hcond]
          simp
  · rw [create_node_eq, if_neg hpres]
    unfold lookupServiceRule
    dsimp only
    rw [List.find?_append]
    by_cases hid : item.id.getD "" = id
    · subst hid
      have hnone : g.nodes.find? (fun n => n.label == "ServiceRule" &&
          n.id == item.id.getD "") = none := by
        rw [List.find?_eq_none]
        intro x hx hpx
        exact hpres (by
          unfold hasServiceRule
          rw [List.any_eq_true]
          exact ⟨x, hx, hpx⟩)
      rw [hnone, if_pos rfl]
      have hone : ([GNode.mk "ServiceRule" (item.id.getD "")
          (nodePropsOf t item)]).find? (fun n => n.label == "ServiceRule" &&
            n.id == item.id.getD "") =
          some (GNode.mk "ServiceRule" (item.id.getD "") (nodePropsOf t item)) := by
        apply List.find?_cons_of_pos
        simp
      rw [hone]
      rfl
    · rw [if_neg hid]
      have hnew : ([GNode.mk "ServiceRule" (item.id.getD "")
          (nodePropsOf t item)]).find? (fun n => n.label == "ServiceRule" &&
            n.id == id) = none := by
        rw [List.find?_eq_none]
        intro x hx hpx
        rw [List.mem_singleton] at hx
        subst hx
        rw [Bool.and_eq_true] at hpx
        exact hid (beq_iff_eq.mp hpx.2)
      rw [hnew, Option.or_none]

lemma lookup_upload_nodes (t : Nat) (data : List Record) :
    ∀ (g : GraphState) (id : String),
      lookupServiceRule (upload_nodes t g data) id =
        match findLastProps t id data with
        | some p => some p
        | none => lookupServiceRule g id := by
  induction data with
  | nil => intro g id; rfl
  | cons r rest ih =>
      intro g id
      show lookupServiceRule (upload_nodes t (create_node t g r) rest) id = _
      rw [ih (create_node t g r) id, lookup_create_node]
      cases hf : findLastProps t id rest with
      | some p => simp [findLastProps, hf]
      | none =>
          by_cases hid : r.id.getD "" = id
          · simp [findLastProps, hf, hid]
          · simp [findLastProps, hf, hid]

lemma findLastProps_isNone (t t' : Nat) (id : String) (data : List Record) :
    (findLastProps t id data).isNone = (findLastProps t' id data).isNone := by
  induction data with
  | nil => rfl
  | cons r rest ih =>
      simp only [findLastProps]
      cases h1 : findLastProps t id rest with
      | some p =>
          cases h2 : findLastProps t' id rest with
          | some q => rfl
          | none => rw [h1, h2] at ih; simp at ih
      | none =>
          cases h2 : findLastProps t' id rest with
          | some q => rw [h1, h2] at ih; simp at ih
          | none => by_cases hid : r.id.getD "" = id <;> simp [hid]

lemma ids_map_pres (f : GNode → GNode)
    (hl : ∀ n, (f n).label = n.label) (hi : ∀ n, (f n).id = n.id)
    (l : List GNode) :
    ((l.map f).filter (fun n => n.label == "ServiceRule")).map (fun n => n.id) =
      (l.filter (fun n => n.label == "ServiceRule")).map (fun n => n.id) := by
  induction l with
  | nil => rfl
  | cons a tl ih =>
      simp only [List.map_cons, List.filter_cons, hl a]
      by_cases hcond : (a.label == "ServiceRule") = true
      · rw [if_pos hcond, if_pos hcond]
        simp only [List.map_cons, hi a, ih]
      · rw [if_neg hcond, if_neg hcond]
        exact ih

lemma hasServiceRule_iff_mem (g : GraphState) (id : String) :
    hasServiceRule g id = true ↔ id ∈ serviceRuleIds g := by
  unfold hasServiceRule serviceRuleIds
  rw [List.any_eq_true]
  constructor
  · rintro ⟨n, hn, hp⟩
    rw [Bool.and_eq_true] at hp
    rw [List.mem_map]
    exact ⟨n, List.mem_filter.mpr ⟨hn, hp.1⟩, beq_iff_eq.mp hp.2⟩
  · intro hmem
    rw [List.mem_map] at hmem
    obtain ⟨n, hnf, hid⟩ := hmem
    obtain ⟨hn, hlab⟩ := List.mem_filter.mp hnf
    refine ⟨n, hn, ?_⟩
    rw [Bool.and_eq_true]
    exact ⟨hlab, beq_iff_eq.mpr hid⟩

lemma serviceRuleIds_create_node (t : Nat) (g : GraphState) (item : Record) :
    serviceRuleIds (create_node t g item) =
      if hasServiceRule g (item.id.getD "") = true then serviceRuleIds g
      else serviceRuleIds g ++ [item.id.getD ""] := by
  by_cases hpres : hasServiceRule g (item.id.getD "") = true
  · rw [create_node_eq, if_pos hpres, if_pos hpres]
    unfold serviceRuleIds
    exact ids_map_pres (updateNode (item.id.getD "") (nodePropsOf t item))
      (updateNode_label (item.id.getD "") (nodePropsOf t item))
      (updateNode_id (item.id.getD "") (nodePropsOf t item)) g.nodes
  · rw [create_node_eq, if_neg hpres, if_neg hpres]
    unfold serviceRuleIds
    dsimp only
    rw [List.filter_append, List.map_append]
    congr 1

lemma serviceRuleIds_nodup_create (t : Nat) (g : GraphState) (item : Record)
    (h : (serviceRuleIds g).Nodup) :
    (serviceRuleIds (create_node t g item)).Nodup := by
  rw [serviceRuleIds_create_node]
  by_cases hpres : hasServiceRule g (item.id.getD "") = true
  · rw [if_pos hpres]; exact h
  · rw [if_neg hpres]
    rw [List.nodup_append]
    refine ⟨h, List.nodup_singleton _, ?_⟩
    intro a ha hb
    rw [List.mem_singleton] at hb
    subst hb
    exact hpres ((hasServiceRule_iff_mem g (item.id.getD "")).mpr ha)

lemma serviceRuleIds_nodup_upload (t : Nat) (data : List Record) :
    ∀ g : GraphState, (serviceRuleIds g).Nodup →
      (serviceRuleIds (upload_nodes t g data)).Nodup := by
  induction data with
  | nil => intro g h; exact h
  | cons r rest ih =>
      intro g h
      exact ih (create_node t g r) (serviceRuleIds_nodup_create t g r h)

/-- Claim C5: node upload is idempotent: running the per-record node upsert
over the same records a second time (at timestamp `t2`) leaves a graph with
no duplicate `ServiceRule` ids and in which every id reads back exactly the
same properties as after a single run (at timestamp `t2`). -/
theorem upload_nodes_idempotent (t1 t2 : Nat) (g : GraphState)
    (data : List Record) (h : (serviceRuleIds g).Nodup) :
    (serviceRuleIds (upload_nodes t2 (upload_nodes t1 g data) data)).Nodup ∧
    ∀ id, lookupServiceRule (upload_nodes t2 (upload_nodes t1 g data) data) id =
      lookupServiceRule (upload_nodes t2 g data) id := by
  constructor
  · exact serviceRuleIds_nodup_upload t2 data _
      (serviceRuleIds_nodup_upload t1 data g h)
  · intro id
    rw [lookup_upload_nodes, lookup_upload_nodes, lookup_upload_nodes]
    cases hf : findLastProps t2 id data with
    | some p => simp [hf]
    | none =>
        have ht1 : findLastProps t1 id data = none := by
          have hiso := findLastProps_isNone t1 t2 id data
          rw [hf] at hiso
          exact Option.isNone_iff_eq_none.mp hiso
        simp [hf, ht1]

/-- Witness for claim C5 at a one-record dataset over the empty graph. -/
theorem upload_nodes_idempotent_witness :
    lookupServiceRule (upload_nodes 1 (upload_nodes 0 (GraphState.mk [] [])
        [sampleRecord]) [sampleRecord]) "1" =
      lookupServiceRule (upload_nodes 1 (GraphState.mk [] []) [sampleRecord])
        "1" :=
  (upload_nodes_idempotent 0 1 (GraphState.mk [] []) [sampleRecord]
    (by simp [serviceRuleIds])).2 "1"

/-- Claim C10: a connection without a `type` field still produces its edge
(when both endpoints exist), with the relation type property defaulted to
the string `"RELATED"`; a record or connection without an `id` field
participates in the edge query with the empty string as its id. -/
theorem connection_defaults (g : GraphState) (item : Record) (c : Connection)
    (hc : c ∈ item.connections.getD []) (hty : c.«type» = none)
    (hsrc : hasServiceRule g (item.id.getD "") = true)
    (hdst : hasServiceRule g (c.id.getD "") = true) :
    GEdge.mk (item.id.getD "") (c.id.getD "") "RELATED" ∈
      (create_relationships g item).edges ∧
    (item.id = none → (edgeOf item c).src = "") ∧
    (c.id = none → (edgeOf item c).dst = "") := by
  have he : edgeOf item c =
      GEdge.mk (item.id.getD "") (c.id.getD "") "RELATED" := by
    simp [edgeOf, hty]
  refine ⟨?_, ?_, ?_⟩
  · apply (create_relationships_mem g item _).mpr
    refine Or.inr ⟨c, hc, he.symm, ?_, ?_⟩
    · rw [he]; exact hsrc
    · rw [he]; exact hdst
  · intro h0; simp [edgeOf, h0]
  · intro h0; simp [edgeOf, h0]

/-- A connection without a `type` field, used by the C10 witness. -/
def noTypeConnection : Connection := Connection.mk (some "2") none

/-- A record whose single connection has no `type` field. -/
def noTypeRecord : Record :=
  Record.mk (some "1") none none none (some [noTypeConnection])

/-- A graph holding the two endpoint nodes of `noTypeRecord`'s connection. -/
def twoNodeGraph : GraphState :=
  GraphState.mk [GNode.mk "ServiceRule" "1" (NodeProps.mk "" "" "" 0),
    GNode.mk "ServiceRule" "2" (NodeProps.mk "" "" "" 0)] []

/-- Witness for claim C10: the defaulted edge is created for a typeless
connection between two existing nodes. -/
theorem connection_defaults_witness :
    GEdge.mk "1" "2" "RELATED" ∈
      (create_relationships twoNodeGraph noTypeRecord).edges :=
  (connection_defaults twoNodeGraph noTypeRecord noTypeConnection (by decide)
    rfl (by decide) (by decide)).1

/-- The settings read by `config.py` that its validation inspects. -/
structure Config where
  PINECONE_API_KEY : String
  NEO4J_PASSWORD : String
  NEO4J_URI : String
  LLM_PROVIDER : String
  OPENAI_API_KEY : String
  HUGGINGFACE_API_KEY : String
deriving DecidableEq

/-- Whether `needle` occurs at the head of `hay`. -/
def startsWithChars : List Char → List Char → Bool
  | [], _ => true
  | _ :: _, [] => false
  | a :: as, b :: bs => a == b && startsWithChars as bs

/-- Whether `needle` occurs contiguously anywhere in the second list. -/
def containsChars (needle : List Char) : List Char → Bool
  | [] => needle.isEmpty
  | b :: bs => startsWithChars needle (b :: bs) || containsChars needle bs

/-- Python's substring test `needle in hay`. -/
def strContainsSub (hay needle : String) : Bool :=
  containsChars needle.data hay.data

/-- The error list accumulated by `validate_config` in `config.py`, in code
order: Pinecone API key, Neo4j password, the selected LLM provider's
credential (an `if`/`elif` chain), and the Neo4j URI placeholder check. -/
def collectConfigErrors (c : Config) : List String :=
  (if c.PINECONE_API_KEY = "" then ["PINECONE_API_KEY is not set"] else []) ++
  (if c.NEO4J_PASSWORD = "" then ["NEO4J_PASSWORD is not set"] else []) ++
  (if c.LLM_PROVIDER = "openai" ∧ c.OPENAI_API_KEY = "" then
    ["OPENAI_API_KEY is not set (LLM_PROVIDER=openai)"]
  else if c.LLM_PROVIDER = "huggingface" ∧ c.HUGGINGFACE_API_KEY = "" then
    ["HUGGINGFACE_API_KEY is not set (LLM_PROVIDER=huggingface)"]
  else []) ++
  (if strContainsSub c.NEO4J_URI "your-neo4j-uri" = true then
    ["NEO4J_URI is not properly configured"]
  else [])

/-- Embedding of `validate_config`: collect every error, then fail with the
joined message when any error was collected, else return `True`.  The
`raise ValueError(...)` of the source is the `Except.error` branch. -/
def validate_config (c : Config) : Except String Bool :=
  if collectConfigErrors c = [] then Except.ok true
  else
    Except.error ("Configuration errors:\n" ++
      String.intercalate "\n"
        ((collectConfigErrors c).map (fun e => "  - " ++ e)))

lemma collectConfigErrors_eq_nil (c : Config) :
    collectConfigErrors c = [] ↔
      (¬c.PINECONE_API_KEY = "" ∧ ¬c.NEO4J_PASSWORD = "" ∧
       ¬(c.LLM_PROVIDER = "openai" ∧ c.OPENAI_API_KEY = "") ∧
       ¬(c.LLM_PROVIDER = "huggingface" ∧ c.HUGGINGFACE_API_KEY = "") ∧
       strContainsSub c.NEO4J_URI "your-neo4j-uri" = false) := by
  unfold collectConfigErrors
  split_ifs <;> simp_all

lemma mem_errors_pinecone (c : Config) :
    "PINECONE_API_KEY is not set" ∈ collectConfigErrors c ↔
      c.PINECONE_API_KEY = "" := by
  unfold collectConfigErrors
  split_ifs <;> simp_all

lemma mem_errors_password (c : Config) :
    "NEO4J_PASSWORD is not set" ∈ collectConfigErrors c ↔
      c.NEO4J_PASSWORD = "" := by
  unfold collectConfigErrors
  split_ifs <;> simp_all

lemma mem_errors_openai (c : Config) :
    "OPENAI_API_KEY is not set (LLM_PROVIDER=openai)" ∈
        collectConfigErrors c ↔
      (c.LLM_PROVIDER = "openai" ∧ c.OPENAI_API_KEY = "") := by
  unfold collectConfigErrors
  split_ifs <;> simp_all

lemma mem_errors_huggingface (c : Config) :
    "HUGGINGFACE_API_KEY is not set (LLM_PROVIDER=huggingface)" ∈
        collectConfigErrors c ↔
      (c.LLM_PROVIDER = "huggingface" ∧ c.HUGGINGFACE_API_KEY = "") := by
  unfold collectConfigErrors
  split_ifs with h1 h2 h3 h4 <;> simp_all

lemma mem_errors_uri (c : Config) :
    "NEO4J_URI is not properly configured" ∈ collectConfigErrors c ↔
      strContainsSub c.NEO4J_URI "your-neo4j-uri" = true := by
  unfold collectConfigErrors
  split_ifs <;> simp_all

/-- Claim C7: `validate_config` succeeds exactly when every mandatory
setting is in order (Pinecone API key, Neo4j password, the selected LLM
provider's credential, and a properly configured Neo4j URI), and otherwise
it reports the collected errors all at once, one fixed message per failing
mandatory setting, each present independently of the others. -/
theorem validate_config_spec (c : Config) :
    (validate_config c = Except.ok true ↔
      (¬c.PINECONE_API_KEY = "" ∧ ¬c.NEO4J_PASSWORD = "" ∧
       ¬(c.LLM_PROVIDER = "openai" ∧ c.OPENAI_API_KEY = "") ∧
       ¬(c.LLM_PROVIDER = "huggingface" ∧ c.HUGGINGFACE_API_KEY = "") ∧
       strContainsSub c.NEO4J_URI "your-neo4j-uri" = false)) ∧
    ("PINECONE_API_KEY is not set" ∈ collectConfigErrors c ↔
      c.PINECONE_API_KEY = "") ∧
    ("NEO4J_PASSWORD is not set" ∈ collectConfigErrors c ↔
      c.NEO4J_PASSWORD = "") ∧
    ("OPENAI_API_KEY is not set (LLM_PROVIDER=openai)" ∈
        collectConfigErrors c ↔
      (c.LLM_PROVIDER = "openai" ∧ c.OPENAI_API_KEY = "")) ∧
    ("HUGGINGFACE_API_KEY is not set (LLM_PROVIDER=huggingface)" ∈
        collectConfigErrors c ↔
      (c.LLM_PROVIDER = "huggingface" ∧ c.HUGGINGFACE_API_KEY = "")) ∧
    ("NEO4J_URI is not properly configured" ∈ collectConfigErrors c ↔
      strContainsSub c.NEO4J_URI "your-neo4j-uri" = true) := by
  refine ⟨?_, mem_errors_pinecone c, mem_errors_password c,
    mem_errors_openai c, mem_errors_huggingface c, mem_errors_uri c⟩
  unfold validate_config
  by_cases he : collectConfigErrors c = []
  · rw [if_pos he]
    constructor
    · intro _; exact (collectConfigErrors_eq_nil c).mp he
    · intro _; rfl
  · rw [if_neg he]
    constructor
    · intro hcontra; exact Except.noConfusion hcontra
    · intro hconds
      exact absurd ((collectConfigErrors_eq_nil c).mpr hconds) he

/-- A configuration missing every mandatory setting. -/
def badConfig : Config :=
  Config.mk "" "" "neo4j+s://your-neo4j-uri.databases.neo4j.io" "huggingface"
    "" ""

/-- Witness for claim C7: the missing Pinecone key is reported on a
concrete bad configuration. -/
theorem validate_config_spec_witness :
    "PINECONE_API_KEY is not set" ∈ collectConfigErrors badConfig :=
  (validate_config_spec badConfig).2.1.mpr rfl

/-- The three phases attempted inside the `try` block of `__main__` in
`upload_data.py`. -/
inductive Phase where
  | pinecone : Phase
  | neo4j : Phase
  | verifyStats : Phase
deriving DecidableEq

/-- Observable events of a run of `__main__`: a phase completing, the
top-level `except` logging an exception, and `driver.close()` running in
the `finally` block. -/
inductive RunEvent where
  | phaseDone (p : Phase) : RunEvent
  | errorLogged (msg : String) : RunEvent
  | driverClosed : RunEvent
deriving DecidableEq

def isCloseEvent : RunEvent → Bool
  | RunEvent.driverClosed => true
  | _ => false

def isErrorLogEvent : RunEvent → Bool
  | RunEvent.errorLogged _ => true
  | _ => false

/-- Sequential execution of the `try` block: phases run in order, and the
first exception aborts the rest, escaping to the handler. -/
def runBody : List (Phase × Except String Unit) → List RunEvent × Option String
  | [] => ([], none)
  | (ph, Except.ok _) :: rest =>
      let r := runBody rest
      (RunEvent.phaseDone ph :: r.1, r.2)
  | (_, Except.error e) :: _ => ([], some e)

/-- Embedding of `__main__`'s `try`/`except`/`finally`: run the three
phases (Pinecone upload, Neo4j upload, verification prints), log the
exception if one escaped, and close the driver unconditionally last.
The parameters are the outcomes of the three phases. -/
def main_run (p n v : Except String Unit) : List RunEvent :=
  let r := runBody [(Phase.pinecone, p), (Phase.neo4j, n),
    (Phase.verifyStats, v)]
  (r.1 ++ (match r.2 with
    | some e => [RunEvent.errorLogged e]
    | none => [])) ++ [RunEvent.driverClosed]

/-- Claim C8: whatever the outcomes of the three phases, the run ends with
`driver.close()` (exactly one close event, and it is last), and an
exception is logged at most once, exactly when some phase failed — the one
top-level handler catches it and the `finally` block always releases the
connection, on the success path and on every failure path. -/
theorem main_cleanup (p n v : Except String Unit) :
    (main_run p n v).getLast? = some RunEvent.driverClosed ∧
    (main_run p n v).countP isCloseEvent = 1 ∧
    (main_run p n v).countP isErrorLogEvent ≤ 1 ∧
    ((main_run p n v).countP isErrorLogEvent = 0 ↔
      p = Except.ok () ∧ n = Except.ok () ∧ v = Except.ok ()) := by
  rcases p with ep | ⟨⟩ <;> rcases n with en | ⟨⟩ <;> rcases v with ev | ⟨⟩ <;>
    refine ⟨rfl, rfl, ?_, ?_⟩ <;>
    simp [main_run, runBody, isErrorLogEvent, List.countP_cons, List.countP_nil]

/-- Witness for claim C8: a failing first phase still ends with the close
event. -/
theorem main_cleanup_witness :
    (main_run (Except.error "boom") (Except.ok ()) (Except.ok ())).getLast? =
      some RunEvent.driverClosed :=
  (main_cleanup (Except.error "boom") (Except.ok ()) (Except.ok ())).1

/-- Total node count reported by the verifier:
`MATCH (n) RETURN count(n)`. -/
def totalNodes (g : GraphState) : Nat := g.nodes.length

/-- Total relationship count reported by the verifier:
`MATCH ()-[r]->() RETURN count(r)`. -/
def totalRelationships (g : GraphState) : Nat := g.edges.length

/-- Grouping `RETURN n.type, count(n)` over a node list: one pair per
distinct `type` value with its number of occurrences. -/
def typeCounts (ns : List GNode) : List (String × Nat) :=
  (ns.map (fun n => n.props.«type»)).dedup.map
    (fun ty => (ty, (ns.filter (fun n => n.props.«type» == ty)).length))

def insertByCountDesc (x : String × Nat) :
    List (String × Nat) → List (String × Nat)
  | [] => [x]
  | y :: ys => if y.2 < x.2 then x :: y :: ys else y :: insertByCountDesc x ys

/-- Sorting by count, descending (`ORDER BY count DESC`; ties in
store-defined order). -/
def sortByCountDesc : List (String × Nat) → List (String × Nat)
  | [] => []
  | x :: xs => insertByCountDesc x (sortByCountDesc xs)

/-- Embedding of the verifier's node-type breakdown query in
`verify_upload.py`: `MATCH (n:Entity) RETURN n.type as node_type, count(n)
as count ORDER BY count DESC LIMIT 10`.  Note the query filters on label
`Entity`, not on the label `ServiceRule` that `create_node` writes. -/
def node_type_breakdown (g : GraphState) : List (String × Nat) :=
  (sortByCountDesc (typeCounts
    (g.nodes.filter (fun n => n.label == "Entity")))).take 10

/-- The end-to-end sample dataset of the spec. -/
def sampleData : List Record :=
  [sampleRecord,
   Record.mk (some "2") (some "Rule B") (some "d2") (some "t2") none]

/-- Claim C9 (code bug): after uploading the sample dataset, the verifier's
totals do see the data (2 nodes, 1 relationship, and both stored nodes carry
label `ServiceRule` with a non-empty `type`), yet the per-type breakdown is
empty, because the breakdown query matches label `Entity` while the uploader
creates only `ServiceRule` nodes — the reported breakdown never covers the
stored nodes. -/
theorem verifier_breakdown_misses_uploaded_nodes :
    totalNodes (upload_to_neo4j 0 (GraphState.mk [] []) sampleData).1 = 2 ∧
    totalRelationships
      (upload_to_neo4j 0 (GraphState.mk [] []) sampleData).1 = 1 ∧
    ((upload_to_neo4j 0 (GraphState.mk [] []) sampleData).1.nodes.filter
      (fun n => n.label == "ServiceRule" && !(n.props.«type» == ""))).length
        = 2 ∧
    node_type_breakdown
      (upload_to_neo4j 0 (GraphState.mk [] []) sampleData).1 = [] := by
  decide

end Upload
